import Mathlib

/-!
Verification development for the deepvideo2 video compositor
(src/make_videos.py and src/make_video.py).

Python strings are embedded as `List Char`; Python string primitives
(`str.split`, `str.split(sep, 1)`, `sep in text`, `str.rstrip`,
`str.strip`, whitespace `str.split()`) are re-implemented on `List Char`
with Python's documented semantics (left-to-right, non-overlapping
occurrence scanning).  Float durations are embedded as `ℚ` (exact
arithmetic; binary-float rounding is abstracted away).
-/

namespace DeepVideo2

abbrev Str := List Char

/-- Remove every whitespace character (the observation used to state that
line-breaking only rewrites whitespace). -/
def stripWs (t : Str) : Str := t.filter (fun c => !c.isWhitespace)

/-- Python `text.split(sep)`, scanning left to right and consuming
non-overlapping occurrences.  The second argument counts separator
characters still to be consumed after a match (`skip` phase), keeping
the recursion structural: `splitOnGo sep t (n)` behaves like
`splitOnGo sep (t.drop n) 0`. -/
def splitOnGo (sep : Str) : Str → ℕ → List Str
  | [], _ => [[]]
  | _ :: rest, skip + 1 => splitOnGo sep rest skip
  | c :: rest, 0 =>
    if sep.isPrefixOf (c :: rest) then
      [] :: splitOnGo sep rest (sep.length - 1)
    else
      match splitOnGo sep rest 0 with
      | [] => [[c]]
      | p :: ps => (c :: p) :: ps

/-- Python `text.split(sep)` (empty separator never occurs in the embedded
code; Python would raise there, we return the whole string). -/
def splitOnL (sep t : Str) : List Str :=
  match sep with
  | [] => [t]
  | _ :: _ => splitOnGo sep t 0

/-- Join a list of pieces with a separator (used to re-assemble split
results, mirroring Python `sep.join`). -/
def joinSep (sep : Str) : List Str → Str
  | [] => []
  | [p] => p
  | p :: ps => p ++ sep ++ joinSep sep ps

/-- Python `text.split(sep, 1)`: locate the first occurrence of
`s0 :: st` and return the pieces before and after it. -/
def splitFirstGo (s0 : Char) (st : Str) : Str → Option (Str × Str)
  | [] => none
  | c :: rest =>
    if (s0 :: st).isPrefixOf (c :: rest) then
      some ([], rest.drop st.length)
    else
      match splitFirstGo s0 st rest with
      | none => none
      | some (p, q) => some (c :: p, q)

/-- Python `text.split(sep, 1)` packaged over a whole separator. -/
def splitFirst (sep t : Str) : Option (Str × Str) :=
  match sep with
  | [] => none
  | s0 :: st => splitFirstGo s0 st t

/-- Python `sep in text` (substring containment). -/
def containsSub (sep t : Str) : Bool :=
  (splitFirst sep t).isSome

/-- Python `str.rstrip()` (drop trailing whitespace). -/
def rstripL (t : Str) : Str :=
  (t.reverse.dropWhile Char.isWhitespace).reverse

/-- Python `str.strip()` (drop leading and trailing whitespace). -/
def stripL (t : Str) : Str :=
  (t.dropWhile Char.isWhitespace).reverse.dropWhile Char.isWhitespace |>.reverse

/-- Split at every character satisfying `p` (keeping empty pieces),
the building block of Python argument-less `str.split()`. -/
def splitCharGo (p : Char → Bool) : Str → List Str
  | [] => [[]]
  | c :: rest =>
    if p c then [] :: splitCharGo p rest
    else
      match splitCharGo p rest with
      | [] => [[c]]
      | q :: qs => (c :: q) :: qs

/-- Python argument-less `text.split()`: split on whitespace runs,
discarding empty pieces. -/
def splitWords (t : Str) : List Str :=
  (splitCharGo (fun c => c.isWhitespace) t).filter (fun w => w ≠ [])

/-! ### format_text_for_display (src/make_videos.py lines 297-345) -/

/-- `primary_break_points = ['. ', '! ', '? ']`. -/
def primaryBreakPoints : List Str :=
  [['.', ' '], ['!', ' '], ['?', ' ']]

/-- `secondary_break_points` in list order (src/make_videos.py). -/
def secondaryBreakPoints : List Str :=
  [[':', ' '], [';', ' '], [',', ' '], [' ', '-', ' '],
   [' ', 'b', 'u', 't', ' '], [' ', 'a', 'n', 'd', ' '], [' ', 'o', 'r', ' '],
   [' ', 'b', 'e', 'c', 'a', 'u', 's', 'e', ' '], [' ', 'w', 'h', 'e', 'n', ' '],
   [' ', 'i', 'f', ' ']]

/-- `separator.strip() in ['but', 'and', 'or', 'because', 'when', 'if']`. -/
def conjunctionWords : List Str :=
  [['b', 'u', 't'], ['a', 'n', 'd'], ['o', 'r'],
   ['b', 'e', 'c', 'a', 'u', 's', 'e'], ['w', 'h', 'e', 'n'], ['i', 'f']]

/-- The `for separator in ...: if separator in text:` loop: the first
separator of the list that occurs in `text`. -/
def firstPresent (t : Str) : List Str → Option Str
  | [] => none
  | sep :: rest => if containsSub sep t then some sep else firstPresent t rest

/-- Primary-branch body: `parts = text.split(separator)`, re-append
`separator.rstrip()` to every part but the last, join with newlines. -/
def appendToInit (suffix : Str) : List Str → List Str
  | [] => []
  | [p] => [p]
  | p :: ps => (p ++ suffix) :: appendToInit suffix ps

/-- The primary-break branch of `format_text_for_display`. -/
def primaryBranch (sep t : Str) : Str :=
  joinSep ['\n'] (appendToInit (rstripL sep) (splitOnL sep t))

/-- The secondary-break branch of `format_text_for_display`
(`text.split(separator, 1)`; conjunctions keep the separator with the
second part, punctuation keeps `separator.rstrip()` with the first). -/
def secondaryBranch (sep t : Str) : Str :=
  match splitFirst sep t with
  | none => t
  | some (p0, p1) =>
    if stripL sep ∈ conjunctionWords then
      p0 ++ '\n' :: (sep ++ p1)
    else
      (p0 ++ rstripL sep) ++ '\n' :: p1

/-- The word-count bisection branch of `format_text_for_display`. -/
def bisectBranch (t : Str) : Str :=
  let words := splitWords t
  let middle := words.length / 2
  joinSep [' '] (words.take middle) ++ '\n' :: joinSep [' '] (words.drop middle)

/-- `format_text_for_display` (src/make_videos.py lines 297-345). -/
def format_text_for_display (t : Str) : Str :=
  if t.length < 30 then t
  else
    match firstPresent t primaryBreakPoints with
    | some sep => primaryBranch sep t
    | none =>
      match firstPresent t secondaryBreakPoints with
      | some sep => secondaryBranch sep t
      | none =>
        if (splitWords t).length > 5 then bisectBranch t
        else t

/-! Spec-side descriptions of the line-breaking behaviour, written as
direct character scanners (independent of the `split`/`join` pipeline of
the source) so that the source function can be compared against them. -/

/-- The spec claim "split at every occurrence of sentence-ending
punctuation": every `'. '`, `'! '` or `'? '` becomes the punctuation
character followed by a newline. -/
def splitAllSentenceEnds : Str → Str
  | [] => []
  | [c] => [c]
  | c :: c2 :: rest =>
    if (c == '.' || c == '!' || c == '?') && c2 == ' ' then
      c :: '\n' :: splitAllSentenceEnds rest
    else
      c :: splitAllSentenceEnds (c2 :: rest)

/-- Scanner replacing every non-overlapping occurrence of `sep` by
`rs ++ '\n'` (with `skip` counting separator characters still being
consumed, as in `splitOnGo`). -/
def breakEveryGo (sep rs : Str) : Str → ℕ → Str
  | [], _ => []
  | _ :: rest, skip + 1 => breakEveryGo sep rs rest skip
  | c :: rest, 0 =>
    if sep.isPrefixOf (c :: rest) then
      rs ++ '\n' :: breakEveryGo sep rs rest (sep.length - 1)
    else
      c :: breakEveryGo sep rs rest 0

/-- Scanner description of the primary break behaviour for one
separator: every occurrence of `sep` becomes `sep.rstrip()` plus a
newline. -/
def breakEvery (sep t : Str) : Str :=
  match sep with
  | [] => t
  | _ :: _ => breakEveryGo sep (rstripL sep) t 0

/-! ### Duration reconciliation (src/make_videos.py `generate_video`)

`generate_video` walks the slides twice.  The first pass (lines 746-771)
accumulates `content_duration` and computes
`total_duration = content_duration + intro_delay + outro_delay`.
The second pass (lines 814-914) re-walks the slides, re-opens each voice
line, trims 0.05 s off its tail when it is longer than 0.1 s ("to prevent
clicking artifacts"), derives the slide duration from the *trimmed* clip,
places the narration at the running `current_time`, and advances
`current_time` by that slide duration.

A slide's narration file is either absent (or voice lines disabled),
present but failing to decode (`AudioFileClip` raises, the `except`
branch falls back to the authored duration), or readable with a known
duration. -/

/-- Outcome of looking up a slide's voice-line file on disk. -/
inductive VoiceLine where
  | missing
  | unreadable
  | readable (duration : ℚ)
deriving DecidableEq

/-- One slide as the duration logic sees it: the authored
`duration_seconds` and the state of its narration asset. -/
structure Slide where
  duration_seconds : ℚ
  voice : VoiceLine
deriving DecidableEq

/-- First-pass slide duration (src/make_videos.py lines 754-768):
`voice_clip.duration + voice_line_delay` when the voice line loads,
otherwise the authored `duration_seconds`. -/
def pass1Duration (voiceLineDelay : ℚ) (s : Slide) : ℚ :=
  match s.voice with
  | .readable d => d + voiceLineDelay
  | _ => s.duration_seconds

/-- `content_duration` accumulated over the first pass. -/
def contentDuration (voiceLineDelay : ℚ) (slides : List Slide) : ℚ :=
  slides.foldl (fun acc s => acc + pass1Duration voiceLineDelay s) 0

/-- `total_duration = content_duration + intro_delay + outro_delay`
(src/make_videos.py line 773). -/
def totalDuration (introDelay outroDelay voiceLineDelay : ℚ)
    (slides : List Slide) : ℚ :=
  contentDuration voiceLineDelay slides + introDelay + outroDelay

/-- The anti-click tail trim of the second pass (lines 826-828): drop
0.05 s when `voice_clip.duration > 0.1`. -/
def trimVoice (d : ℚ) : ℚ :=
  if d > 1/10 then d - 1/20 else d

/-- Second-pass slide duration (lines 823-846): derived from the
*trimmed* voice clip, `voice_clip.duration + voice_line_delay`; falls
back to the authored duration when the clip is absent or unreadable. -/
def pass2Duration (voiceLineDelay : ℚ) (s : Slide) : ℚ :=
  match s.voice with
  | .readable d => trimVoice d + voiceLineDelay
  | _ => s.duration_seconds

/-- Whether the second pass actually trims this slide's narration. -/
def isTrimmed (s : Slide) : Bool :=
  match s.voice with
  | .readable d => d > 1/10
  | _ => false

/-- The second pass's running timeline: starting from `current_time`,
emit one `(start_time, slide_duration)` entry per slide and advance by
the slide duration (lines 814-913).  The narration clip of a narrated
slide is placed at exactly the `start_time` of its entry
(`voice_clip.set_start(current_time)`, line 834). -/
def buildTimeline (voiceLineDelay : ℚ) : ℚ → List Slide → List (ℚ × ℚ)
  | _, [] => []
  | t, s :: rest =>
    (t, pass2Duration voiceLineDelay s)
      :: buildTimeline voiceLineDelay (t + pass2Duration voiceLineDelay s) rest

/-- The reconciled slide timeline: `current_time` starts at
`intro_delay` (line 815). -/
def slideTimeline (introDelay voiceLineDelay : ℚ) (slides : List Slide) :
    List (ℚ × ℚ) :=
  buildTimeline voiceLineDelay introDelay slides

/-! ### Media resolution (src/make_videos.py `find_best_match`, lines 275-295)

`find_best_match` delegates to `difflib.get_close_matches(target,
options, n=1, cutoff=...)`.  The similarity is
`SequenceMatcher.ratio() = 2*M/T` where `M` is the total size of the
matching blocks (recursive longest-contiguous-match decomposition) and
`T` the sum of the two lengths; with `T = 0` difflib returns `1.0`.
`get_close_matches` keeps the candidates whose ratio reaches the cutoff
and returns the `n` best, highest ratio first.  The embedding keeps the
candidate order stable among equal ratios (difflib breaks such ties by
tuple comparison on the strings; none of the verified claims depends on
the order of equally-scored candidates).  No junk heuristic applies
(it only activates for sequences of 200+ elements). -/

/-- Length of the longest common prefix of two strings. -/
def commonPrefixLen : Str → Str → ℕ
  | a :: as, b :: bs => if a = b then commonPrefixLen as bs + 1 else 0
  | _, _ => 0

/-- `SequenceMatcher.find_longest_match` over whole strings: the longest
contiguous common block `(i, j, k)` (`a.drop i` and `b.drop j` share a
prefix of length `k`), maximal `k`, ties resolved to the smallest `i`
then the smallest `j`. -/
def findLongestMatch (a b : Str) : ℕ × ℕ × ℕ :=
  ((List.range (a.length + 1)).flatMap fun i =>
    (List.range (b.length + 1)).map fun j =>
      (i, j, commonPrefixLen (a.drop i) (b.drop j))).foldl
    (fun best c => if c.2.2 > best.2.2 then c else best) (0, 0, 0)

/-- Total size of the matching blocks: recursively take the longest
match and recurse on the pieces to its left and to its right
(`SequenceMatcher.get_matching_blocks`).  Each recursive call strictly
shrinks the first string (a block with `k ≥ 1` has `i < a.length` and
`i + k ≤ a.length`), so `a.length + 1` units of fuel always suffice. -/
def matchesTotalGo : ℕ → Str → Str → ℕ
  | 0, _, _ => 0
  | fuel + 1, a, b =>
    match findLongestMatch a b with
    | (i, j, k) =>
      if k = 0 then 0
      else
        matchesTotalGo fuel (a.take i) (b.take j) + k +
          matchesTotalGo fuel (a.drop (i + k)) (b.drop (j + k))

/-- Total matched elements between `a` and `b`. -/
def matchesTotal (a b : Str) : ℕ :=
  matchesTotalGo (a.length + 1) a b

/-- `difflib._calculate_ratio`: `2.0 * matches / length`, and `1.0` when
both sequences are empty. -/
def calculateRatio (m length : ℕ) : ℚ :=
  if length = 0 then 1 else 2 * (m : ℚ) / (length : ℚ)

/-- `SequenceMatcher(None, a, b).ratio()`. -/
def ratioPy (a b : Str) : ℚ :=
  calculateRatio (matchesTotal a b) (a.length + b.length)

/-- Insert into a list sorted by strictly descending score, after any
equal scores (stable). -/
def insertByScoreDesc (score : Str → ℚ) (x : Str) : List Str → List Str
  | [] => [x]
  | y :: ys =>
    if score x > score y then x :: y :: ys
    else y :: insertByScoreDesc score x ys

/-- Stable sort by descending score. -/
def sortByScoreDesc (score : Str → ℚ) : List Str → List Str
  | [] => []
  | x :: xs => insertByScoreDesc score x (sortByScoreDesc score xs)

/-- `difflib.get_close_matches(word, possibilities, n, cutoff)`,
parameterised by the similarity function (instantiated with `ratioPy`;
difflib scores each candidate `x` as `SequenceMatcher(None, x,
word).ratio()` and keeps those `≥ cutoff`). -/
def get_close_matches (ratio : Str → Str → ℚ) (word : Str)
    (possibilities : List Str) (n : ℕ) (cutoff : ℚ) : List Str :=
  (sortByScoreDesc (fun x => ratio x word)
    (possibilities.filter (fun x => cutoff ≤ ratio x word))).take n

/-- `find_best_match(target, options)` (src/make_videos.py lines 275-295
and the identical src/make_video.py lines 198-218): `None` on an empty
list, else the 0.6-cutoff best match, else the 0.1-cutoff best match,
else `options[0]`. -/
def find_best_match (ratio : Str → Str → ℚ) (target : Str)
    (options : List Str) : Option Str :=
  match options with
  | [] => none
  | o :: os =>
    match get_close_matches ratio target (o :: os) 1 (3/5) with
    | m :: _ => some m
    | [] =>
      match get_close_matches ratio target (o :: os) 1 (1/10) with
      | m :: _ => some m
      | [] => some o

/-! ### resize_video (src/make_videos.py lines 205-234, identical in
src/make_video.py lines 139-168)

The aspect comparison `clip.w/clip.h > target_w/target_h` is embedded
exactly over the integers (`w * th > tw * h`); moviepy's
`clip.resize(height=h)` keeps the aspect ratio and truncates the scaled
width to an integer, embedded as `w * th / h` in `ℕ`.  `clip.crop(x1,
y1, width, height)` slices the frame `frame[y1:y2, x1:x2]` with
`x2 = x1 + width`, `y2 = y1 + height`; `sliceBound`/`sliceLen` implement
the Python slice rules (negative indices wrap, bounds clamp). -/

/-- Resolve one Python slice endpoint against a length. -/
def sliceBound (len : ℕ) (i : ℤ) : ℕ :=
  (min (if i < 0 then i + len else i) (len : ℤ)).toNat

/-- Number of elements selected by the Python slice `[a:b]`. -/
def sliceLen (len : ℕ) (a b : ℤ) : ℕ :=
  sliceBound len b - sliceBound len a

/-- Frame dimensions produced by `clip.crop(x1=.., y1=.., width=..,
height=..)` on a `rw × rh` frame. -/
def cropDims (rw rh : ℕ) (x1 y1 : ℤ) (cw ch : ℕ) : ℕ × ℕ :=
  (sliceLen rw x1 (x1 + cw), sliceLen rh y1 (y1 + ch))

/-- Result of `resize_video`: the intermediate resized frame, the crop
offsets, and the final frame dimensions. -/
structure ResizeResult where
  rw : ℕ
  rh : ℕ
  x1 : ℤ
  y1 : ℤ
  outW : ℕ
  outH : ℕ
deriving DecidableEq

/-- `resize_video(clip, target_resolution)` on a `w × h` source clip and
`(tw, th)` target. -/
def resize_video (w h tw th : ℕ) : ResizeResult :=
  if w * th > tw * h then
    -- clip is wider than target: resize to height th, center-crop width
    let rh := th
    let rw := w * th / h
    let x1 : ℤ := ((rw / 2 : ℕ) : ℤ) - ((tw / 2 : ℕ) : ℤ)
    let dims := cropDims rw rh x1 0 tw th
    ⟨rw, rh, x1, 0, dims.1, dims.2⟩
  else
    -- clip is taller than target: resize to width tw, center-crop height
    let rw := tw
    let rh := tw * h / w
    let y1 : ℤ := ((rh / 2 : ℕ) : ℤ) - ((th / 2 : ℕ) : ℤ)
    let dims := cropDims rw rh 0 y1 tw th
    ⟨rw, rh, 0, y1, dims.1, dims.2⟩

/-! ### process_scenario (src/make_video.py lines 446-483)

The whole body sits in one `try`; on any exception the `except` branch
returns `False`.  The scenario document on disk is rewritten (with
`has_video: true`) only after `generate_video` returned a truthy output
path.  Failures of loading are modelled by `loadOk = false`
(`yaml.safe_load` raised), failures of generation by
`generate = .error ()` (an exception) or `generate = .ok none` (a falsy
return). -/

/-- The scenario document state the compositor can mutate. -/
structure ScenarioDoc where
  has_video : Bool
deriving DecidableEq

/-- `process_scenario(scenario_path, vertical, force, quality)`:
returns the boolean result and the scenario document on disk after the
call. -/
def process_scenario (force : Bool) (doc : ScenarioDoc) (loadOk : Bool)
    (generate : Except Unit (Option Str)) : Bool × ScenarioDoc :=
  if !loadOk then (false, doc)
  else if !force && doc.has_video then (false, doc)
  else
    match generate with
    | .error _ => (false, doc)
    | .ok none => (false, doc)
    | .ok (some _) => (true, { doc with has_video := true })

/-! ## Lemmas about the string machinery -/

theorem isPrefixOf_append_drop :
    ∀ a b : Str, a.isPrefixOf b = true → a ++ b.drop a.length = b := by
  intro a
  induction a with
  | nil => intro b _; simp
  | cons x xs ih =>
    intro b hb
    cases b with
    | nil => simp [List.isPrefixOf] at hb
    | cons y ys =>
      simp only [List.isPrefixOf, Bool.and_eq_true, beq_iff_eq] at hb
      obtain ⟨rfl, h2⟩ := hb
      simpa using ih ys h2

theorem splitOnGo_skip (sep : Str) :
    ∀ (t : Str) (n : ℕ), splitOnGo sep t n = splitOnGo sep (t.drop n) 0 := by
  intro t
  induction t with
  | nil => intro n; cases n <;> rfl
  | cons c rest ih =>
    intro n
    cases n with
    | zero => rfl
    | succ k => simpa [splitOnGo] using ih k

theorem splitOnGo_ne_nil (sep : Str) :
    ∀ (t : Str) (n : ℕ), splitOnGo sep t n ≠ [] := by
  intro t
  induction t with
  | nil => intro n; cases n <;> simp [splitOnGo]
  | cons c rest ih =>
    intro n
    cases n with
    | succ k => simpa [splitOnGo] using ih k
    | zero =>
      by_cases h : sep.isPrefixOf (c :: rest)
      · simp [splitOnGo, h]
      · cases hS : splitOnGo sep rest 0 with
        | nil => exact absurd hS (ih 0)
        | cons p ps => simp [splitOnGo, h, hS]

theorem joinSep_cons_head (sep : Str) (c : Char) (p : Str) (ps : List Str) :
    joinSep sep ((c :: p) :: ps) = c :: joinSep sep (p :: ps) := by
  cases ps <;> simp [joinSep]

/-- Re-joining the pieces of `text.split(sep)` with `sep` restores the
text. -/
theorem joinSep_splitOnGo (s0 : Char) (st : Str) :
    ∀ t : Str, joinSep (s0 :: st) (splitOnGo (s0 :: st) t 0) = t := by
  have main : ∀ (n : ℕ) (t : Str), t.length ≤ n →
      joinSep (s0 :: st) (splitOnGo (s0 :: st) t 0) = t := by
    intro n
    induction n with
    | zero =>
      intro t ht
      cases t with
      | nil => rfl
      | cons c rest => simp at ht
    | succ n ih =>
      intro t ht
      cases t with
      | nil => rfl
      | cons c rest =>
        by_cases h : (s0 :: st).isPrefixOf (c :: rest)
        · have hu := isPrefixOf_append_drop _ _ h
          simp only [List.length_cons, List.drop_succ_cons] at hu
          simp only [splitOnGo, h, if_true, List.length_cons,
            Nat.add_sub_cancel]
          rw [splitOnGo_skip]
          cases hS : splitOnGo (s0 :: st) (rest.drop st.length) 0 with
          | nil => exact absurd hS (splitOnGo_ne_nil _ _ _)
          | cons p ps =>
            have hdl : (rest.drop st.length).length ≤ n := by
              have := List.length_drop st.length rest
              simp at ht
              omega
            have hrec := ih (rest.drop st.length) hdl
            rw [hS] at hrec
            calc joinSep (s0 :: st) ([] :: p :: ps)
                = (s0 :: st) ++ joinSep (s0 :: st) (p :: ps) := by
                  simp [joinSep]
              _ = (s0 :: st) ++ rest.drop st.length := by rw [hrec]
              _ = c :: rest := hu
        · have hrec := ih rest (by simp at ht; omega)
          cases hS : splitOnGo (s0 :: st) rest 0 with
          | nil => exact absurd hS (splitOnGo_ne_nil _ _ _)
          | cons p ps =>
            simp only [splitOnGo, h, if_false, hS, Bool.false_eq_true]
            rw [joinSep_cons_head]
            rw [hS] at hrec
            rw [hrec]
  exact fun t => main t.length t le_rfl

/-- Re-joining the pieces of `text.split(sep, 1)` restores the text. -/
theorem splitFirstGo_append (s0 : Char) (st : Str) :
    ∀ t p q : Str, splitFirstGo s0 st t = some (p, q) →
      t = p ++ (s0 :: st) ++ q := by
  intro t
  induction t with
  | nil => intro p q h; simp [splitFirstGo] at h
  | cons c rest ih =>
    intro p q h
    by_cases hp : (s0 :: st).isPrefixOf (c :: rest)
    · have hu := isPrefixOf_append_drop _ _ hp
      simp only [List.length_cons, List.drop_succ_cons] at hu
      simp only [splitFirstGo, hp, if_true, Option.some.injEq, Prod.mk.injEq] at h
      obtain ⟨rfl, rfl⟩ := h
      simpa using hu.symm
    · simp only [splitFirstGo, hp, if_false, Bool.false_eq_true] at h
      cases hS : splitFirstGo s0 st rest with
      | none => rw [hS] at h; simp at h
      | some pq =>
        obtain ⟨p', q'⟩ := pq
        rw [hS] at h
        simp only [Option.some.injEq, Prod.mk.injEq] at h
        obtain ⟨rfl, rfl⟩ := h
        simpa using ih p' q' hS

theorem splitFirst_append (sep t p q : Str) (h : splitFirst sep t = some (p, q)) :
    t = p ++ sep ++ q := by
  cases sep with
  | nil => simp [splitFirst] at h
  | cons s0 st => exact splitFirstGo_append s0 st t p q h

/-! ## Lemmas about whitespace removal -/

theorem stripWs_append (a b : Str) : stripWs (a ++ b) = stripWs a ++ stripWs b :=
  List.filter_append ..

theorem stripWs_dropWhile (l : Str) :
    stripWs (l.dropWhile Char.isWhitespace) = stripWs l := by
  induction l with
  | nil => rfl
  | cons c rest ih =>
    by_cases h : c.isWhitespace
    · simp [List.dropWhile_cons, h, stripWs, List.filter_cons]
      simpa [stripWs] using ih
    · simp [List.dropWhile_cons, h]

theorem stripWs_reverse (l : Str) : stripWs l.reverse = (stripWs l).reverse :=
  List.filter_reverse ..

theorem stripWs_rstripL (l : Str) : stripWs (rstripL l) = stripWs l := by
  unfold rstripL
  rw [stripWs_reverse, stripWs_dropWhile, stripWs_reverse, List.reverse_reverse]

/-- `stripWs` maps `joinSep` to `joinSep` of the stripped pieces. -/
theorem stripWs_joinSep (sep : Str) :
    ∀ l : List Str, stripWs (joinSep sep l) = joinSep (stripWs sep) (l.map stripWs) := by
  intro l
  induction l with
  | nil => rfl
  | cons p ps ih =>
    cases ps with
    | nil => rfl
    | cons q qs =>
      simp only [joinSep, List.map_cons]
      rw [stripWs_append, stripWs_append, ih]
      simp [joinSep]

theorem joinSep_nil_eq_flatten : ∀ l : List Str, joinSep [] l = l.flatten := by
  intro l
  induction l with
  | nil => rfl
  | cons p ps ih =>
    cases ps with
    | nil => simp [joinSep]
    | cons q qs => simpa [joinSep] using ih

theorem map_stripWs_appendToInit (rs : Str) :
    ∀ parts : List Str, (appendToInit rs parts).map stripWs =
      appendToInit (stripWs rs) (parts.map stripWs) := by
  intro parts
  induction parts with
  | nil => rfl
  | cons p ps ih =>
    cases ps with
    | nil => rfl
    | cons q qs =>
      simp only [appendToInit, List.map_cons] at ih ⊢
      rw [stripWs_append, ih]

theorem appendToInit_ne_nil (x p : Str) (ps : List Str) :
    appendToInit x (p :: ps) ≠ [] := by
  cases ps <;> simp [appendToInit]

theorem joinSep_nil_cons (a : Str) (l : List Str) (h : l ≠ []) :
    joinSep [] (a :: l) = a ++ joinSep [] l := by
  cases l with
  | nil => exact absurd rfl h
  | cons b bs => simp [joinSep]

theorem joinSep_nil_appendToInit (x : Str) :
    ∀ l : List Str, joinSep [] (appendToInit x l) = joinSep x l := by
  intro l
  induction l with
  | nil => rfl
  | cons p ps ih =>
    cases ps with
    | nil => rfl
    | cons q qs =>
      have hsh : appendToInit x (p :: q :: qs) =
          (p ++ x) :: appendToInit x (q :: qs) := rfl
      rw [hsh, joinSep_nil_cons _ _ (appendToInit_ne_nil x q qs), ih]
      simp [joinSep]

theorem stripWs_nil : stripWs [] = [] := rfl

theorem stripWs_cons_ws (c : Char) (h : c.isWhitespace = true) (l : Str) :
    stripWs (c :: l) = stripWs l := by
  simp [stripWs, List.filter_cons, h]

theorem stripWs_primaryBranch (s0 : Char) (st t : Str) :
    stripWs (primaryBranch (s0 :: st) t) = stripWs t := by
  show stripWs (joinSep ['\n']
      (appendToInit (rstripL (s0 :: st)) (splitOnGo (s0 :: st) t 0))) = stripWs t
  rw [stripWs_joinSep, stripWs_cons_ws '\n' (by decide) [], stripWs_nil,
    map_stripWs_appendToInit, joinSep_nil_appendToInit, stripWs_rstripL,
    ← stripWs_joinSep, joinSep_splitOnGo]

theorem stripWs_secondaryBranch (sep t : Str) :
    stripWs (secondaryBranch sep t) = stripWs t := by
  cases h : splitFirst sep t with
  | none => simp [secondaryBranch, h]
  | some pq =>
    obtain ⟨p, q⟩ := pq
    have ht := splitFirst_append sep t p q h
    simp only [secondaryBranch, h]
    rw [ht]
    split
    · rw [stripWs_append, stripWs_cons_ws '\n' (by decide),
        stripWs_append, stripWs_append, stripWs_append]
      simp [List.append_assoc]
    · rw [stripWs_append, stripWs_append, stripWs_cons_ws '\n' (by decide),
        stripWs_rstripL, stripWs_append, stripWs_append, List.append_assoc]

theorem flatten_splitCharGo (p : Char → Bool) :
    ∀ t : Str, (splitCharGo p t).flatten = t.filter (fun c => !p c) := by
  intro t
  induction t with
  | nil => simp [splitCharGo]
  | cons c rest ih =>
    by_cases h : p c
    · simp [splitCharGo, h, List.filter_cons, ih]
    · cases hS : splitCharGo p rest with
      | nil =>
        rw [hS] at ih
        simp only [splitCharGo, h, if_false, Bool.false_eq_true, hS]
        simp only [List.flatten] at ih ⊢
        simp [List.filter_cons, h, ← ih]
      | cons q qs =>
        rw [hS] at ih
        simp only [splitCharGo, h, if_false, Bool.false_eq_true, hS]
        simp only [List.flatten, List.flatten_cons] at ih ⊢
        simp [List.filter_cons, h, List.append_assoc, ih]

theorem splitCharGo_mem_clean (p : Char → Bool) :
    ∀ (t : Str) (w : Str), w ∈ splitCharGo p t →
      w.filter (fun c => !p c) = w := by
  intro t
  induction t with
  | nil =>
    intro w hw
    simp [splitCharGo] at hw
    simp [hw]
  | cons c rest ih =>
    intro w hw
    by_cases h : p c
    · simp only [splitCharGo, h, if_true, List.mem_cons] at hw
      rcases hw with rfl | hw
      · rfl
      · exact ih w hw
    · cases hS : splitCharGo p rest with
      | nil =>
        simp only [splitCharGo, h, if_false, Bool.false_eq_true, hS,
          List.mem_singleton] at hw
        subst hw
        simp [List.filter_cons, h]
      | cons q qs =>
        simp only [splitCharGo, h, if_false, Bool.false_eq_true, hS,
          List.mem_cons] at hw
        rcases hw with rfl | hw
        · have hq := ih q (by rw [hS]; exact List.mem_cons_self ..)
          simp [List.filter_cons, h, hq]
        · exact ih w (by rw [hS]; exact List.mem_cons_of_mem _ hw)

theorem flatten_filter_ne_nil :
    ∀ l : List Str, (l.filter (fun w => w ≠ [])).flatten = l.flatten := by
  intro l
  induction l with
  | nil => rfl
  | cons w ws ih =>
    by_cases h : w = []
    · subst h
      have h2 : ([] :: ws).filter (fun w : Str => w ≠ []) =
          ws.filter (fun w => w ≠ []) := by simp
      rw [h2, ih]
      simp
    · have h2 : (w :: ws).filter (fun w : Str => w ≠ []) =
          w :: ws.filter (fun w => w ≠ []) := by simp [h]
      rw [h2, List.flatten_cons, ih, List.flatten_cons]

theorem stripWs_joinSep_space (ws : List Str)
    (hclean : ∀ w ∈ ws, stripWs w = w) :
    stripWs (joinSep [' '] ws) = ws.flatten := by
  rw [stripWs_joinSep, stripWs_cons_ws ' ' (by decide) [], stripWs_nil,
    joinSep_nil_eq_flatten]
  congr 1
  calc ws.map stripWs = ws.map id := List.map_congr_left hclean
    _ = ws := List.map_id ws

theorem splitWords_mem_clean (t w : Str) (hw : w ∈ splitWords t) :
    stripWs w = w := by
  unfold splitWords at hw
  exact splitCharGo_mem_clean _ t w (List.mem_of_mem_filter hw)

theorem stripWs_bisectBranch (t : Str) :
    stripWs (bisectBranch t) = stripWs t := by
  unfold bisectBranch
  rw [stripWs_append, stripWs_cons_ws '\n' (by decide)]
  rw [stripWs_joinSep_space _ (fun w hw =>
        splitWords_mem_clean t w (List.mem_of_mem_take hw)),
      stripWs_joinSep_space _ (fun w hw =>
        splitWords_mem_clean t w (List.mem_of_mem_drop hw))]
  rw [← List.flatten_append, List.take_append_drop]
  unfold splitWords
  rw [flatten_filter_ne_nil, flatten_splitCharGo]
  rfl

theorem firstPresent_mem {t : Str} :
    ∀ {l : List Str} {sep : Str}, firstPresent t l = some sep → sep ∈ l := by
  intro l
  induction l with
  | nil => intro sep h; simp [firstPresent] at h
  | cons s rest ih =>
    intro sep h
    unfold firstPresent at h
    split at h
    · simp only [Option.some.injEq] at h
      subst h
      exact List.mem_cons_self ..
    · exact List.mem_cons_of_mem _ (ih h)

/-- C10: `format_text_for_display` only rewrites whitespace — deleting
all whitespace from its output yields exactly the input with all
whitespace deleted, on every input string. -/
theorem C10_format_text_preserves_nonwhitespace (t : Str) :
    stripWs (format_text_for_display t) = stripWs t := by
  by_cases hlen : t.length < 30
  · simp [format_text_for_display, hlen]
  · cases h1 : firstPresent t primaryBreakPoints with
    | some sep =>
      have hmem := firstPresent_mem h1
      cases sep with
      | nil => simp [primaryBreakPoints] at hmem
      | cons s0 st =>
        simp only [format_text_for_display, hlen, if_false, h1]
        exact stripWs_primaryBranch s0 st t
    | none =>
      cases h2 : firstPresent t secondaryBreakPoints with
      | some sep =>
        simp only [format_text_for_display, hlen, if_false, h1, h2]
        exact stripWs_secondaryBranch sep t
      | none =>
        by_cases hw : (splitWords t).length > 5
        · simp only [format_text_for_display, hlen, if_false, h1, h2, hw, if_true]
          exact stripWs_bisectBranch t
        · simp [format_text_for_display, hlen, h1, h2, hw]

/-! ## Equivalence of the primary split/join pipeline with the direct
scanner -/

theorem breakEveryGo_skip (sep rs : Str) :
    ∀ (t : Str) (n : ℕ), breakEveryGo sep rs t n = breakEveryGo sep rs (t.drop n) 0 := by
  intro t
  induction t with
  | nil => intro n; cases n <;> rfl
  | cons c rest ih =>
    intro n
    cases n with
    | zero => rfl
    | succ k => simpa [breakEveryGo] using ih k

theorem joinSep_cons (sep a : Str) (l : List Str) (h : l ≠ []) :
    joinSep sep (a :: l) = a ++ sep ++ joinSep sep l := by
  cases l with
  | nil => exact absurd rfl h
  | cons b bs => simp [joinSep]

theorem joinNL_appendToInit_cons_head (rs : Str) (c : Char) (p : Str)
    (ps : List Str) :
    joinSep ['\n'] (appendToInit rs ((c :: p) :: ps)) =
      c :: joinSep ['\n'] (appendToInit rs (p :: ps)) := by
  cases ps with
  | nil => simp [appendToInit, joinSep]
  | cons q qs =>
    simp only [appendToInit, List.cons_append]
    exact joinSep_cons_head _ c (p ++ rs) _

theorem primaryBranch_eq_breakEveryGo (s0 : Char) (st rs : Str) :
    ∀ t : Str,
      joinSep ['\n'] (appendToInit rs (splitOnGo (s0 :: st) t 0)) =
        breakEveryGo (s0 :: st) rs t 0 := by
  have main : ∀ (n : ℕ) (t : Str), t.length ≤ n →
      joinSep ['\n'] (appendToInit rs (splitOnGo (s0 :: st) t 0)) =
        breakEveryGo (s0 :: st) rs t 0 := by
    intro n
    induction n with
    | zero =>
      intro t ht
      cases t with
      | nil => rfl
      | cons c rest => simp at ht
    | succ n ih =>
      intro t ht
      cases t with
      | nil => rfl
      | cons c rest =>
        by_cases h : (s0 :: st).isPrefixOf (c :: rest)
        · simp only [splitOnGo, breakEveryGo, h, if_true, List.length_cons,
            Nat.add_sub_cancel]
          rw [splitOnGo_skip, breakEveryGo_skip]
          have hdl : (rest.drop st.length).length ≤ n := by
            have := List.length_drop st.length rest
            simp at ht
            omega
          have hrec := ih (rest.drop st.length) hdl
          cases hS : splitOnGo (s0 :: st) (rest.drop st.length) 0 with
          | nil => exact absurd hS (splitOnGo_ne_nil _ _ _)
          | cons p ps =>
            rw [hS] at hrec
            have hsh : appendToInit rs ([] :: p :: ps) =
                rs :: appendToInit rs (p :: ps) := by
              simp [appendToInit]
            rw [hsh, joinSep_cons _ _ _ (appendToInit_ne_nil rs p ps), hrec]
            simp
        · simp only [splitOnGo, breakEveryGo, h, if_false, Bool.false_eq_true]
          have hrec := ih rest (by simp at ht; omega)
          cases hS : splitOnGo (s0 :: st) rest 0 with
          | nil => exact absurd hS (splitOnGo_ne_nil _ _ _)
          | cons p ps =>
            rw [hS] at hrec
            rw [joinNL_appendToInit_cons_head, hrec]
  exact fun t => main t.length t le_rfl

theorem primaryBranch_eq_breakEvery (s0 : Char) (st t : Str) :
    primaryBranch (s0 :: st) t = breakEvery (s0 :: st) t := by
  show joinSep ['\n']
      (appendToInit (rstripL (s0 :: st)) (splitOnGo (s0 :: st) t 0)) =
    breakEveryGo (s0 :: st) (rstripL (s0 :: st)) t 0
  exact primaryBranch_eq_breakEveryGo s0 st (rstripL (s0 :: st)) t

/-- C8 (counterexample): the claim quantifies over every input text and
says a text containing a sentence-ending separator is split at every
occurrence of sentence-ending punctuation.  Both parts fail on the code:
a long text containing both `'! '` and `'. '` is split only at the
occurrences of `'. '` (the first primary separator present), and a short
text (under 30 characters) containing `'. '` is returned entirely
unchanged. -/
theorem C8_counterexample :
    (containsSub ['.', ' '] "Wait for the signal! Then we move out. Stay low.".data = true ∧
     containsSub ['!', ' '] "Wait for the signal! Then we move out. Stay low.".data = true) ∧
    format_text_for_display "Wait for the signal! Then we move out. Stay low.".data ≠
      splitAllSentenceEnds "Wait for the signal! Then we move out. Stay low.".data ∧
    (containsSub ['.', ' '] "Hi. Go. Bye.".data = true ∧
     format_text_for_display "Hi. Go. Bye.".data = "Hi. Go. Bye.".data ∧
     splitAllSentenceEnds "Hi. Go. Bye.".data ≠ "Hi. Go. Bye.".data) := by
  decide

/-- C8 (amended): for texts of at least 30 characters,
`format_text_for_display` applies break points in strict priority
order — the first primary separator present (in the order `'. '`,
`'! '`, `'? '`) is split at every one of *its* occurrences (equal to
the direct scanner `breakEvery`); otherwise the first secondary
separator present (clause punctuation before conjunctions, in list
order) is split at its first occurrence only, conjunctions travelling
with the second line and punctuation staying on the first; otherwise a
text of more than 5 words is bisected at the midpoint word count, and
anything else — like every text under 30 characters — is returned
unchanged. -/
theorem C8_amended (t : Str) :
    (t.length < 30 → format_text_for_display t = t) ∧
    (30 ≤ t.length →
      (∀ sep, firstPresent t primaryBreakPoints = some sep →
        format_text_for_display t = breakEvery sep t) ∧
      (firstPresent t primaryBreakPoints = none →
        ∀ sep p q, firstPresent t secondaryBreakPoints = some sep →
          splitFirst sep t = some (p, q) →
          t = p ++ sep ++ q ∧
          format_text_for_display t =
            (if stripL sep ∈ conjunctionWords then p ++ '\n' :: (sep ++ q)
             else (p ++ rstripL sep) ++ '\n' :: q)) ∧
      (firstPresent t primaryBreakPoints = none →
        firstPresent t secondaryBreakPoints = none →
        format_text_for_display t =
          (if 5 < (splitWords t).length then bisectBranch t else t))) := by
  constructor
  · intro hlen
    simp [format_text_for_display, hlen]
  · intro hlen
    have hlen' : ¬ t.length < 30 := by omega
    refine ⟨?_, ?_, ?_⟩
    · intro sep hsep
      have hmem := firstPresent_mem hsep
      cases sep with
      | nil => simp [primaryBreakPoints] at hmem
      | cons s0 st =>
        simp only [format_text_for_display, hlen', if_false, hsep]
        exact primaryBranch_eq_breakEvery s0 st t
    · intro h1 sep p q hsep hsplit
      refine ⟨splitFirst_append sep t p q hsplit, ?_⟩
      simp only [format_text_for_display, hlen', if_false, h1, hsep,
        secondaryBranch, hsplit]
    · intro h1 h2
      simp only [format_text_for_display, hlen', if_false, h1, h2, gt_iff_lt]

/-- C8 (witness for the amended claim): the 40-character text
"alpha beta gamma: delta epsilon zeta eta" has no primary separator,
its first secondary separator is the colon, and the code breaks it at
that colon, keeping the colon on the first line. -/
theorem C8_amended_witness :
    "alpha beta gamma: delta epsilon zeta eta".data =
      "alpha beta gamma".data ++ [':', ' '] ++ "delta epsilon zeta eta".data ∧
    format_text_for_display "alpha beta gamma: delta epsilon zeta eta".data =
      (if stripL [':', ' '] ∈ conjunctionWords then
        "alpha beta gamma".data ++ '\n' :: ([':', ' '] ++ "delta epsilon zeta eta".data)
       else ("alpha beta gamma".data ++ rstripL [':', ' ']) ++ '\n' ::
        "delta epsilon zeta eta".data) :=
  ((C8_amended "alpha beta gamma: delta epsilon zeta eta".data).2
    (by decide)).2.1 (by decide) [':', ' '] "alpha beta gamma".data
    "delta epsilon zeta eta".data (by decide) (by decide)

/-! ## Lemmas about the reconciled timeline -/

theorem buildTimeline_length (delay : ℚ) :
    ∀ (slides : List Slide) (t : ℚ),
      (buildTimeline delay t slides).length = slides.length := by
  intro slides
  induction slides with
  | nil => intro t; rfl
  | cons s rest ih => intro t; simp [buildTimeline, ih]

theorem buildTimeline_map_snd (delay : ℚ) :
    ∀ (slides : List Slide) (t : ℚ),
      (buildTimeline delay t slides).map Prod.snd =
        slides.map (pass2Duration delay) := by
  intro slides
  induction slides with
  | nil => intro t; rfl
  | cons s rest ih => intro t; simp [buildTimeline, ih]

theorem buildTimeline_head_start (delay : ℚ) (slides : List Slide) (t : ℚ)
    (e : ℚ × ℚ) (h : (buildTimeline delay t slides)[0]? = some e) :
    e.1 = t := by
  cases slides with
  | nil => simp [buildTimeline] at h
  | cons s rest =>
    simp only [buildTimeline, List.getElem?_cons_zero, Option.some.injEq] at h
    rw [← h]

theorem buildTimeline_get?_of_slide (delay : ℚ) :
    ∀ (slides : List Slide) (t : ℚ) (i : ℕ) (s : Slide),
      slides[i]? = some s →
      ∃ st : ℚ, (buildTimeline delay t slides)[i]? =
        some (st, pass2Duration delay s) := by
  intro slides
  induction slides with
  | nil => intro t i s h; simp at h
  | cons s0 rest ih =>
    intro t i s h
    cases i with
    | zero =>
      simp only [List.getElem?_cons_zero, Option.some.injEq] at h
      subst h
      exact ⟨t, by simp [buildTimeline]⟩
    | succ j =>
      simp only [List.getElem?_cons_succ] at h
      simpa [buildTimeline] using ih (t + pass2Duration delay s0) j s h

theorem buildTimeline_chain (delay : ℚ) :
    ∀ (slides : List Slide) (t : ℚ) (i : ℕ) (a b : ℚ × ℚ),
      (buildTimeline delay t slides)[i]? = some a →
      (buildTimeline delay t slides)[i + 1]? = some b →
      b.1 = a.1 + a.2 := by
  intro slides
  induction slides with
  | nil => intro t i a b ha hb; simp [buildTimeline] at ha
  | cons s rest ih =>
    intro t i a b ha hb
    cases i with
    | zero =>
      simp only [buildTimeline, List.getElem?_cons_zero, Option.some.injEq] at ha
      simp only [buildTimeline, List.getElem?_cons_succ] at hb
      have := buildTimeline_head_start delay rest
        (t + pass2Duration delay s) b hb
      rw [this, ← ha]
    | succ j =>
      simp only [buildTimeline, List.getElem?_cons_succ] at ha hb
      exact ih (t + pass2Duration delay s) j a b ha hb

theorem contentDuration_eq_sum (delay : ℚ) (slides : List Slide) :
    contentDuration delay slides = (slides.map (pass1Duration delay)).sum := by
  unfold contentDuration
  have main : ∀ (l : List Slide) (a : ℚ),
      l.foldl (fun acc s => acc + pass1Duration delay s) a =
        a + (l.map (pass1Duration delay)).sum := by
    intro l
    induction l with
    | nil => intro a; simp
    | cons s rest ih =>
      intro a
      simp only [List.foldl_cons, List.map_cons, List.sum_cons, ih]
      ring
  simpa using main slides 0

theorem pass1_eq_pass2_add_trim (delay : ℚ) (s : Slide) :
    pass1Duration delay s =
      pass2Duration delay s + (if isTrimmed s then 1/20 else 0) := by
  cases hv : s.voice with
  | missing => simp [pass1Duration, pass2Duration, isTrimmed, hv]
  | unreadable => simp [pass1Duration, pass2Duration, isTrimmed, hv]
  | readable d =>
    simp only [pass1Duration, pass2Duration, isTrimmed, hv, trimVoice,
      decide_eq_true_eq]
    split_ifs with hd <;> ring

theorem sum_pass1_eq_sum_pass2_add (delay : ℚ) :
    ∀ slides : List Slide,
      (slides.map (pass1Duration delay)).sum =
        (slides.map (pass2Duration delay)).sum +
          (1/20) * ((slides.filter isTrimmed).length : ℚ) := by
  intro slides
  induction slides with
  | nil => simp
  | cons s rest ih =>
    simp only [List.map_cons, List.sum_cons, ih,
      pass1_eq_pass2_add_trim delay s]
    by_cases h : isTrimmed s
    · simp only [List.filter_cons, h, if_true, List.length_cons]
      push_cast
      ring
    · simp only [List.filter_cons, h, Bool.false_eq_true, if_false]
      ring

/-! ## Claims C1, C2, C3 and C6: duration reconciliation -/

/-- C1 (counterexample): a slide with a readable 4.2 s narration and
`voice_line_delay = 0.5` is put on screen for 4.65 s, not the claimed
`4.2 + 0.5 = 4.7` s — the placement pass derives the slide duration
from the narration clip after trimming 0.05 s off its tail. -/
theorem C1_counterexample :
    ((slideTimeline 1 (1/2)
        [⟨2, VoiceLine.readable (21/5)⟩])[0]?).map Prod.snd ≠
      some (21/5 + 1/2) := by
  norm_num [slideTimeline, buildTimeline, pass2Duration, trimVoice]

/-- C1 (amended): for every slide whose narration audio is readable with
duration D, the reconciled on-screen duration equals
`(if D > 0.1 then D - 0.05 else D) + voice_line_delay` — the narration
duration minus the 0.05 s anti-click tail trim plus the configured
trailing buffer — regardless of the authored `duration_seconds`. -/
theorem C1_amended (introD delay : ℚ) (slides : List Slide) (i : ℕ)
    (s : Slide) (d : ℚ) (hs : slides[i]? = some s)
    (hv : s.voice = VoiceLine.readable d) :
    ((slideTimeline introD delay slides)[i]?).map Prod.snd =
      some (trimVoice d + delay) := by
  obtain ⟨st, hst⟩ := buildTimeline_get?_of_slide delay slides introD i s hs
  unfold slideTimeline
  rw [hst]
  simp [pass2Duration, hv]

/-- C1 (witness): instantiating the amended claim at a slide authored
for 2 s with a 4.2 s narration and delay 0.5 gives 4.65 s on screen. -/
theorem C1_amended_witness :
    ((slideTimeline 1 (1/2)
        [⟨2, VoiceLine.readable (21/5)⟩])[0]?).map Prod.snd =
      some (trimVoice (21/5) + 1/2) :=
  C1_amended 1 (1/2) [⟨2, VoiceLine.readable (21/5)⟩] 0
    ⟨2, VoiceLine.readable (21/5)⟩ (21/5) rfl rfl

/-- C2 (counterexample): with one slide (authored 2 s, narration 4.2 s),
`intro_delay = 1`, `outro_delay = 2` and delay 0.5, the code's
`total_duration` is 7.7 s but intro + placed slide durations + outro is
7.65 s, so the total does not equal intro plus the sum of the timeline's
durations plus outro. -/
theorem C2_counterexample :
    totalDuration 1 2 (1/2) [⟨2, VoiceLine.readable (21/5)⟩] ≠
      1 + ((slideTimeline 1 (1/2)
          [⟨2, VoiceLine.readable (21/5)⟩]).map Prod.snd).sum + 2 := by
  norm_num [slideTimeline, buildTimeline, pass2Duration, trimVoice,
    totalDuration, contentDuration, pass1Duration]

/-- C2 (amended): the reconciled timeline is contiguous and exhaustive —
one entry per slide, the first entry starts at `intro_delay`, and
`start[i+1] = start[i] + duration[i]` for every adjacent pair — but the
total composition duration equals intro + sum of the timeline durations
+ outro only after adding back 0.05 s for every slide whose narration
was tail-trimmed (narration longer than 0.1 s). -/
theorem C2_amended (introD outroD delay : ℚ) (slides : List Slide) :
    (slideTimeline introD delay slides).length = slides.length ∧
    (∀ e, (slideTimeline introD delay slides)[0]? = some e → e.1 = introD) ∧
    (∀ (i : ℕ) (a b : ℚ × ℚ),
      (slideTimeline introD delay slides)[i]? = some a →
      (slideTimeline introD delay slides)[i + 1]? = some b →
      b.1 = a.1 + a.2) ∧
    totalDuration introD outroD delay slides =
      introD + ((slideTimeline introD delay slides).map Prod.snd).sum +
        (1/20) * ((slides.filter isTrimmed).length : ℚ) + outroD := by
  refine ⟨buildTimeline_length delay slides introD,
    fun e he => buildTimeline_head_start delay slides introD e he,
    fun i a b ha hb => buildTimeline_chain delay slides introD i a b ha hb,
    ?_⟩
  unfold totalDuration slideTimeline
  rw [contentDuration_eq_sum, sum_pass1_eq_sum_pass2_add,
    buildTimeline_map_snd]
  ring

/-- C2 (witness): on the spec's worked example the timeline is
`[(1, 2), (3, 4.65), (7.65, 2)]`; the second entry indeed starts where
the first ends. -/
theorem C2_amended_witness :
    (slideTimeline 1 (1/2) [⟨2, VoiceLine.missing⟩,
        ⟨3, VoiceLine.readable (21/5)⟩, ⟨2, VoiceLine.missing⟩])[0]? =
      some (1, 2) ∧
    (slideTimeline 1 (1/2) [⟨2, VoiceLine.missing⟩,
        ⟨3, VoiceLine.readable (21/5)⟩, ⟨2, VoiceLine.missing⟩])[1]? =
      some (3, 93/20) ∧
    (3 : ℚ) = 1 + 2 := by
  have h0 : (slideTimeline 1 (1/2) [⟨2, VoiceLine.missing⟩,
      ⟨3, VoiceLine.readable (21/5)⟩, ⟨2, VoiceLine.missing⟩])[0]? =
      some (1, 2) := by
    norm_num [slideTimeline, buildTimeline, pass2Duration, trimVoice]
  have h1 : (slideTimeline 1 (1/2) [⟨2, VoiceLine.missing⟩,
      ⟨3, VoiceLine.readable (21/5)⟩, ⟨2, VoiceLine.missing⟩])[1]? =
      some (3, 93/20) := by
    norm_num [slideTimeline, buildTimeline, pass2Duration, trimVoice]
  have h2 := (C2_amended 1 2 (1/2) [⟨2, VoiceLine.missing⟩,
      ⟨3, VoiceLine.readable (21/5)⟩, ⟨2, VoiceLine.missing⟩]).2.2.1
    0 (1, 2) (3, 93/20) h0 h1
  exact ⟨h0, h1, by simpa using h2⟩

/-- C3 (counterexample): the per-slide durations of the two passes
differ — a slide with a 4.2 s narration counts as 4.7 s in the
total-duration pass but 4.65 s in the placement pass — and consequently
a narration that follows a narrated slide starts 0.05 s earlier than the
total-duration pass's accumulated start. -/
theorem C3_counterexample :
    pass1Duration (1/2) ⟨2, VoiceLine.readable (21/5)⟩ ≠
      pass2Duration (1/2) ⟨2, VoiceLine.readable (21/5)⟩ ∧
    ((slideTimeline 1 (1/2) [⟨5, VoiceLine.readable (21/5)⟩,
        ⟨3, VoiceLine.readable 1⟩])[1]?).map Prod.fst ≠
      some (1 + pass1Duration (1/2) ⟨5, VoiceLine.readable (21/5)⟩) := by
  constructor
  · norm_num [pass1Duration, pass2Duration, trimVoice]
  · norm_num [slideTimeline, buildTimeline, pass1Duration, pass2Duration,
      trimVoice]

/-- C3 (amended): the placement pass and the total-duration pass agree
on a slide's duration exactly up to the anti-click tail trim — each
slide's total-pass duration exceeds its placement-pass duration by
0.05 s when its narration exceeds 0.1 s and by nothing otherwise — and
narration is placed at the running start time of the placement pass; in
the spec's worked example (slides authored [2, 3, 2] s, slide 2 narrated
for 4.2 s, intro 1 s, delay 0.5 s) slide 2's narration still begins at
exactly 3.0 s because slide 1 carries no narration. -/
theorem C3_amended :
    (∀ (delay : ℚ) (s : Slide),
      pass1Duration delay s =
        pass2Duration delay s + (if isTrimmed s then 1/20 else 0)) ∧
    ((slideTimeline 1 (1/2) [⟨2, VoiceLine.missing⟩,
        ⟨3, VoiceLine.readable (21/5)⟩, ⟨2, VoiceLine.missing⟩])[1]?).map
      Prod.fst = some 3 := by
  refine ⟨pass1_eq_pass2_add_trim, ?_⟩
  norm_num [slideTimeline, buildTimeline, pass2Duration, trimVoice]

/-- C6: a slide with no narration file, or with one that cannot be read
or decoded, keeps its authored `duration_seconds` exactly, in both the
total-duration pass and the placement pass (the read failure is caught
in an `except` branch that falls back to the authored duration, so the
render continues). -/
theorem C6_fallback_authored (introD delay : ℚ) (slides : List Slide)
    (i : ℕ) (s : Slide) (hs : slides[i]? = some s)
    (hv : s.voice = VoiceLine.missing ∨ s.voice = VoiceLine.unreadable) :
    pass1Duration delay s = s.duration_seconds ∧
    ((slideTimeline introD delay slides)[i]?).map Prod.snd =
      some s.duration_seconds := by
  obtain ⟨st, hst⟩ := buildTimeline_get?_of_slide delay slides introD i s hs
  constructor
  · rcases hv with hv | hv <;> simp [pass1Duration, hv]
  · unfold slideTimeline
    rw [hst]
    rcases hv with hv | hv <;> simp [pass2Duration, hv]

/-- C6 (witness): a slide with an unreadable narration keeps its
authored 7 s duration. -/
theorem C6_fallback_authored_witness :
    pass1Duration (1/2) ⟨7, VoiceLine.unreadable⟩ = 7 ∧
    ((slideTimeline 1 (1/2)
        [⟨7, VoiceLine.unreadable⟩])[0]?).map Prod.snd = some 7 :=
  C6_fallback_authored 1 (1/2) [⟨7, VoiceLine.unreadable⟩] 0
    ⟨7, VoiceLine.unreadable⟩ rfl (Or.inr rfl)

/-! ## Claims C4 and C9: media resolution -/

theorem mem_insertByScoreDesc (score : Str → ℚ) (x z : Str) :
    ∀ l : List Str, z ∈ insertByScoreDesc score x l → z = x ∨ z ∈ l := by
  intro l
  induction l with
  | nil => intro h; simpa [insertByScoreDesc] using h
  | cons y ys ih =>
    intro h
    by_cases hc : score x > score y
    · simp only [insertByScoreDesc, if_pos hc] at h
      rcases List.mem_cons.mp h with h | h
      · exact Or.inl h
      · exact Or.inr h
    · simp only [insertByScoreDesc, if_neg hc] at h
      rcases List.mem_cons.mp h with h | h
      · exact Or.inr (h ▸ List.mem_cons_self ..)
      · rcases ih h with h | h
        · exact Or.inl h
        · exact Or.inr (List.mem_cons_of_mem _ h)

theorem mem_sortByScoreDesc (score : Str → ℚ) (z : Str) :
    ∀ l : List Str, z ∈ sortByScoreDesc score l → z ∈ l := by
  intro l
  induction l with
  | nil => intro h; simp [sortByScoreDesc] at h
  | cons x xs ih =>
    intro h
    rcases mem_insertByScoreDesc score x z _ h with h | h
    · exact h ▸ List.mem_cons_self ..
    · exact List.mem_cons_of_mem _ (ih h)

theorem get_close_matches_subset (ratio : Str → Str → ℚ) (word : Str)
    (possibilities : List Str) (n : ℕ) (cutoff : ℚ) (z : Str)
    (h : z ∈ get_close_matches ratio word possibilities n cutoff) :
    z ∈ possibilities := by
  unfold get_close_matches at h
  exact List.mem_of_mem_filter
    (mem_sortByScoreDesc _ z _ (List.mem_of_mem_take h))

/-- C4: for every similarity function, every requested name and every
non-empty list of available filenames, `find_best_match` returns `some`
member of the list — never `None` and never a name outside the list
(and, being a total function, it raises no exception). -/
theorem C4_resolution_totality (ratio : Str → Str → ℚ) (target : Str)
    (options : List Str) (h : options ≠ []) :
    ∃ x ∈ options, find_best_match ratio target options = some x := by
  cases options with
  | nil => exact absurd rfl h
  | cons o os =>
    cases h6 : get_close_matches ratio target (o :: os) 1 (3/5) with
    | cons m ms =>
      refine ⟨m, ?_, by simp only [find_best_match]; rw [h6]⟩
      exact get_close_matches_subset ratio target _ 1 (3/5) m
        (h6 ▸ List.mem_cons_self ..)
    | nil =>
      cases h1 : get_close_matches ratio target (o :: os) 1 (1/10) with
      | cons m ms =>
        refine ⟨m, ?_, by simp only [find_best_match]; rw [h6, h1]⟩
        exact get_close_matches_subset ratio target _ 1 (1/10) m
          (h1 ▸ List.mem_cons_self ..)
      | nil =>
        exact ⟨o, List.mem_cons_self ..,
          by simp only [find_best_match]; rw [h6, h1]⟩

/-- C4 (witness): with the real difflib similarity, an exact-name
request resolves to that member. -/
theorem C4_resolution_totality_witness :
    ∃ x ∈ (["calm.mp3".data, "epic.mp3".data] : List Str),
      find_best_match ratioPy "calm.mp3".data
        ["calm.mp3".data, "epic.mp3".data] = some x :=
  C4_resolution_totality ratioPy "calm.mp3".data
    ["calm.mp3".data, "epic.mp3".data] (by simp)

/-- C9 (counterexample): the lenient low-threshold retry can come back
empty on a non-empty list — requesting "zzzz" against the single
available file "aaaa" shares no characters, its difflib ratio is 0 <
0.1, so the 0.1-cutoff retry returns no match and the deterministic
`options[0]` fallback is reached with a non-empty available set. -/
theorem C9_counterexample :
    (["aaaa".data] : List Str) ≠ [] ∧
    get_close_matches ratioPy "zzzz".data ["aaaa".data] 1 (1/10) = [] := by
  constructor
  · simp
  · have h : ratioPy "aaaa".data "zzzz".data = 0 := by
      have h0 : matchesTotal "aaaa".data "zzzz".data = 0 := by decide
      simp [ratioPy, h0, calculateRatio]
    simp [get_close_matches, h, sortByScoreDesc]

/-- C9 (amended): the first-file fallback branch is reachable on
non-empty inputs as well — whenever both the 0.6-cutoff search and the
0.1-cutoff retry return nothing, `find_best_match` returns `options[0]`,
which is still a member of the available set (on an empty set the
function returns `None` before reaching the fallback). -/
theorem C9_amended (ratio : Str → Str → ℚ) (target o : Str) (os : List Str)
    (h6 : get_close_matches ratio target (o :: os) 1 (3/5) = [])
    (h1 : get_close_matches ratio target (o :: os) 1 (1/10) = []) :
    find_best_match ratio target (o :: os) = some o ∧ o ∈ o :: os ∧
      find_best_match ratio target [] = none := by
  exact ⟨by simp only [find_best_match]; rw [h6, h1], List.mem_cons_self .., rfl⟩

/-- C9 (witness): the fallback fires for request "zzzz" against the
non-empty set containing only "aaaa", returning "aaaa". -/
theorem C9_amended_witness :
    find_best_match ratioPy "zzzz".data ["aaaa".data] =
        some "aaaa".data ∧
      "aaaa".data ∈ ["aaaa".data] ∧
      find_best_match ratioPy "zzzz".data [] = none := by
  have h : ratioPy "aaaa".data "zzzz".data = 0 := by
    have h0 : matchesTotal "aaaa".data "zzzz".data = 0 := by decide
    simp [ratioPy, h0, calculateRatio]
  have h6 : get_close_matches ratioPy "zzzz".data ["aaaa".data] 1 (3/5) = [] := by
    simp [get_close_matches, h, sortByScoreDesc]
  have h1 : get_close_matches ratioPy "zzzz".data ["aaaa".data] 1 (1/10) = [] := by
    simp [get_close_matches, h, sortByScoreDesc]
  exact C9_amended ratioPy "zzzz".data "aaaa".data [] h6 h1

/-! ## Claim C5: cover-fit resize -/

theorem sliceLen_eval (len : ℕ) (a b : ℤ) (h0 : 0 ≤ a) (hab : a ≤ b)
    (hb : b ≤ (len : ℤ)) : (sliceLen len a b : ℤ) = b - a := by
  unfold sliceLen sliceBound
  rw [if_neg (by omega), if_neg (by omega)]
  omega

/-- C5: for every source clip with positive dimensions and every target
resolution with positive dimensions, `resize_video` crops a window that
lies inside the resized frame, whose output dimensions equal the target
exactly, and whose margins on the overflowing dimension differ by at
most one pixel (exact centering up to integer rounding). -/
theorem C5_cover_fit (w h tw th : ℕ) (hw : 0 < w) (hh : 0 < h)
    (htw : 0 < tw) (hth : 0 < th) :
    (resize_video w h tw th).outW = tw ∧
    (resize_video w h tw th).outH = th ∧
    0 ≤ (resize_video w h tw th).x1 ∧
    (resize_video w h tw th).x1 + tw ≤ ((resize_video w h tw th).rw : ℤ) ∧
    0 ≤ (resize_video w h tw th).y1 ∧
    (resize_video w h tw th).y1 + th ≤ ((resize_video w h tw th).rh : ℤ) ∧
    ((resize_video w h tw th).x1 -
      (((resize_video w h tw th).rw : ℤ) - tw -
        (resize_video w h tw th).x1)).natAbs ≤ 1 ∧
    ((resize_video w h tw th).y1 -
      (((resize_video w h tw th).rh : ℤ) - th -
        (resize_video w h tw th).y1)).natAbs ≤ 1 := by
  by_cases hc : w * th > tw * h
  · have hres : resize_video w h tw th =
        ⟨w * th / h, th,
         ((w * th / h / 2 : ℕ) : ℤ) - ((tw / 2 : ℕ) : ℤ), 0,
         sliceLen (w * th / h)
           (((w * th / h / 2 : ℕ) : ℤ) - ((tw / 2 : ℕ) : ℤ))
           ((((w * th / h / 2 : ℕ) : ℤ) - ((tw / 2 : ℕ) : ℤ)) + tw),
         sliceLen th 0 (0 + th)⟩ := by
      unfold resize_video cropDims
      rw [if_pos hc]
    have hrw : tw ≤ w * th / h := (Nat.le_div_iff_mul_le hh).mpr (le_of_lt hc)
    rw [hres]
    dsimp only
    have hx0 : (0 : ℤ) ≤ ((w * th / h / 2 : ℕ) : ℤ) - ((tw / 2 : ℕ) : ℤ) := by
      omega
    have hxw : (((w * th / h / 2 : ℕ) : ℤ) - ((tw / 2 : ℕ) : ℤ)) + tw ≤
        ((w * th / h : ℕ) : ℤ) := by
      omega
    have how := sliceLen_eval (w * th / h)
      (((w * th / h / 2 : ℕ) : ℤ) - ((tw / 2 : ℕ) : ℤ))
      ((((w * th / h / 2 : ℕ) : ℤ) - ((tw / 2 : ℕ) : ℤ)) + tw)
      hx0 (by omega) hxw
    have hoh := sliceLen_eval th 0 (0 + th) (by omega) (by omega) (by omega)
    refine ⟨by omega, by omega, hx0, hxw, by omega, by omega, by omega,
      by omega⟩
  · have hc' : w * th ≤ tw * h := by omega
    have hres : resize_video w h tw th =
        ⟨tw, tw * h / w, 0,
         ((tw * h / w / 2 : ℕ) : ℤ) - ((th / 2 : ℕ) : ℤ),
         sliceLen tw 0 (0 + tw),
         sliceLen (tw * h / w) (((tw * h / w / 2 : ℕ) : ℤ) - ((th / 2 : ℕ) : ℤ))
           ((((tw * h / w / 2 : ℕ) : ℤ) - ((th / 2 : ℕ) : ℤ)) + th)⟩ := by
      unfold resize_video cropDims
      rw [if_neg hc]
    have hrh : th ≤ tw * h / w := (Nat.le_div_iff_mul_le hw).mpr
      (by calc th * w = w * th := Nat.mul_comm th w
        _ ≤ tw * h := hc')
    rw [hres]
    dsimp only
    have hy0 : (0 : ℤ) ≤ ((tw * h / w / 2 : ℕ) : ℤ) - ((th / 2 : ℕ) : ℤ) := by
      omega
    have hyh : (((tw * h / w / 2 : ℕ) : ℤ) - ((th / 2 : ℕ) : ℤ)) + th ≤
        ((tw * h / w : ℕ) : ℤ) := by
      omega
    have hoh := sliceLen_eval (tw * h / w)
      (((tw * h / w / 2 : ℕ) : ℤ) - ((th / 2 : ℕ) : ℤ))
      ((((tw * h / w / 2 : ℕ) : ℤ) - ((th / 2 : ℕ) : ℤ)) + th)
      hy0 (by omega) hyh
    have how := sliceLen_eval tw 0 (0 + tw) (by omega) (by omega) (by omega)
    refine ⟨by omega, by omega, by omega, by omega, hy0, hyh, by omega,
      by omega⟩

/-- C5 (witness): covering a 1080×1920 portrait target with a 1280×720
landscape clip resizes it to 3413×1920 and center-crops to exactly
1080×1920, with margins 1166 and 1167. -/
theorem C5_cover_fit_witness :
    (resize_video 1280 720 1080 1920).outW = 1080 ∧
    (resize_video 1280 720 1080 1920).outH = 1920 ∧
    0 ≤ (resize_video 1280 720 1080 1920).x1 ∧
    ((resize_video 1280 720 1080 1920).x1 -
      (((resize_video 1280 720 1080 1920).rw : ℤ) - 1080 -
        (resize_video 1280 720 1080 1920).x1)).natAbs ≤ 1 :=
  have hmain := C5_cover_fit 1280 720 1080 1920 (by decide) (by decide)
    (by decide) (by decide)
  ⟨hmain.1, hmain.2.1, hmain.2.2.1, hmain.2.2.2.2.2.2.1⟩

/-! ## Claim C7: per-scenario failure isolation -/

/-- C7: `process_scenario` converts every modelled failure (unreadable
scenario file, exception inside `generate_video`, falsy return) into the
return value `False` with the scenario document unchanged; the document
is marked `has_video` only when generation returned an output path, in
which case the call returns `True` — and the Lean model is a total
function, mirroring that the Python body catches every `Exception`. -/
theorem C7_failure_isolation (force : Bool) (doc : ScenarioDoc)
    (loadOk : Bool) (generate : Except Unit (Option Str)) :
    (loadOk = false → process_scenario force doc loadOk generate = (false, doc)) ∧
    (generate = Except.error () →
      process_scenario force doc loadOk generate = (false, doc)) ∧
    (generate = Except.ok none →
      process_scenario force doc loadOk generate = (false, doc)) ∧
    ((process_scenario force doc loadOk generate).1 = false →
      (process_scenario force doc loadOk generate).2 = doc) ∧
    ((process_scenario force doc loadOk generate).2 ≠ doc →
      (process_scenario force doc loadOk generate).1 = true ∧
      ∃ p, generate = Except.ok (some p)) := by
  obtain ⟨hv⟩ := doc
  rcases generate with e | op
  · obtain rfl : e = () := rfl
    cases loadOk <;> cases force <;> cases hv <;>
      simp [process_scenario]
  · rcases op with _ | p <;> cases loadOk <;> cases force <;> cases hv <;>
      simp [process_scenario]

/-- C7 (witness): an exception inside generation leaves an unprocessed
document unmarked and returns `False`. -/
theorem C7_failure_isolation_witness :
    process_scenario false ⟨false⟩ true (Except.error ()) =
      (false, (⟨false⟩ : ScenarioDoc)) :=
  (C7_failure_isolation false ⟨false⟩ true (Except.error ())).2.1 rfl

end DeepVideo2
